import Mathlib

/-!
Verification development for the FASTCLIPPER video-clip editor.

Shallow embedding of the keyframe recorder (`src/editor/frameRecorder.js`),
the selection controller (`src/components/editor/selectionController.js`),
the editor constants (`src/components/editor/editorConstants.js`) and the
`VideoRenderer` filtergraph builder, together with theorems checking the
natural-language specification's claims about them.

All JS numbers are modelled as rationals (`ℚ`); the JS `Map` keyed by
timestamp is modelled as an association list in insertion order.
-/

set_option maxHeartbeats 1000000

namespace FastClipper

/-- A selection rectangle with zoom. This is both the `selectionData` stored
in a keyframe by `FrameRecorder` and the `this.selection` state of
`SelectionController` (`{x, y, width, height, zoom}`). -/
structure Selection where
  x : ℚ
  y : ℚ
  width : ℚ
  height : ℚ
  zoom : ℚ
deriving DecidableEq, Repr

/-- Constant `EDITOR_CONSTANTS.RECORDING.KEYFRAME_INTERVAL` (milliseconds, `33`). -/
def KEYFRAME_INTERVAL : ℚ := 33

/-- Constant `EDITOR_CONSTANTS.RECORDING.SMOOTHING` (`true`). -/
def SMOOTHING : Bool := true

/-- Constant `EDITOR_CONSTANTS.SELECTION.ZOOM_SENSITIVITY` (`0.1`). -/
def ZOOM_SENSITIVITY : ℚ := 1 / 10

/-- Constant `EDITOR_CONSTANTS.SELECTION.MIN_ZOOM` (`0.3`). -/
def MIN_ZOOM : ℚ := 3 / 10

/-- Constant `EDITOR_CONSTANTS.SELECTION.MAX_ZOOM` (`3.0`). -/
def MAX_ZOOM : ℚ := 3

/-- The `minInterval` computed inside `FrameRecorder.recordKeyframe`:
`this.constants.RECORDING?.KEYFRAME_INTERVAL / 1000 || 0.033`.  The value
`33 / 1000` is nonzero, so the `|| 0.033` fallback is not taken. -/
def minInterval : ℚ := KEYFRAME_INTERVAL / 1000

/-- The recorder's `this.keyframes` JS `Map` (timestamp → keyframe),
modelled as an association list in insertion order.  A keyframe is the pair
of its timestamp key and its `selection` payload; the wall-clock
`recordedAt` field is not modelled. -/
abbrev KeyframeMap := List (ℚ × Selection)

/-- JS `Map.get`: the value stored at key `ts`, or `none`. -/
def mapGet (ts : ℚ) : KeyframeMap → Option Selection
  | [] => none
  | (k, v) :: rest => if k = ts then some v else mapGet ts rest

/-- JS `Map.has`. -/
def mapHas (ts : ℚ) (m : KeyframeMap) : Bool :=
  (mapGet ts m).isSome

/-- JS `Map.set`: overwrites the entry at an existing key, otherwise
appends a new entry at the end. -/
def mapSet (ts : ℚ) (v : Selection) : KeyframeMap → KeyframeMap
  | [] => [(ts, v)]
  | (k, w) :: rest => if k = ts then (k, v) :: rest else (k, w) :: mapSet ts v rest

/-- JS `Map.delete`: removes the entry at the key (keys are unique, so
removing the first occurrence is the full deletion). -/
def mapDelete (ts : ℚ) : KeyframeMap → KeyframeMap
  | [] => []
  | (k, v) :: rest => if k = ts then rest else (k, v) :: mapDelete ts rest

/-- The mutable state of a `FrameRecorder` instance.  The DOM event
plumbing (`emitRecordingEvent`), the logger and the `recordingInterval`
handle are not modelled. -/
structure RecorderState where
  isRecording : Bool
  keyframes : KeyframeMap
  currentTime : ℚ
  videoDuration : ℚ
  lastKeyframeTime : ℚ
deriving DecidableEq, Repr

/-- Failure channel for recorder operations.  The specification names an
`InvalidState` error for `startRecording` while already recording. -/
inductive EditorError where
  | invalidState
deriving DecidableEq, Repr

/-- Embedding of `FrameRecorder.startRecording(videoDuration)`.  The source's guard
`if (this.isRecording) return;` is a normal, non-throwing early return, so
both paths of the embedding produce `.ok`. -/
def startRecording (st : RecorderState) (videoDuration : ℚ) :
    Except EditorError RecorderState :=
  if st.isRecording then Except.ok st
  else Except.ok { st with
    isRecording := true
    videoDuration := videoDuration
    keyframes := []
    currentTime := 0
    lastKeyframeTime := 0 }

/-- Embedding of `FrameRecorder.recordKeyframe(timestamp, selectionData)`. -/
def recordKeyframe (st : RecorderState) (timestamp : ℚ) (selectionData : Selection) :
    RecorderState :=
  if !st.isRecording then st
  else if timestamp < 0 ∨ timestamp > st.videoDuration then st
  else
    let timeDiff := timestamp - st.lastKeyframeTime
    if timeDiff < minInterval ∧ mapHas st.lastKeyframeTime st.keyframes then st
    else { st with
      keyframes := mapSet timestamp selectionData st.keyframes
      lastKeyframeTime := timestamp
      currentTime := timestamp }

/-- Folding a list of `recordKeyframe` calls (timestamp, selection) over a
recorder state, in order. -/
def recordAll (st : RecorderState) (calls : List (ℚ × Selection)) : RecorderState :=
  calls.foldl (fun s c => recordKeyframe s c.1 c.2) st

/-- Embedding of `FrameRecorder.lerp(start, end, progress)` (`end` is a Lean keyword,
hence `finish`). -/
def lerp (start finish progress : ℚ) : ℚ :=
  start + (finish - start) * progress

/-- Embedding of `FrameRecorder.easeInOut(t)`. -/
def easeInOut (t : ℚ) : ℚ :=
  if t < 1 / 2 then 2 * t * t else -1 + (4 - 2 * t) * t

/-- Embedding of `FrameRecorder.interpolateSelection(selection1, selection2, time1, time2,
currentTime)`.  The read of `this.constants.RECORDING?.SMOOTHING` is passed
in as the `smoothing` argument; the shipped constant is `SMOOTHING = true`. -/
def interpolateSelection (smoothing : Bool) (selection1 selection2 : Selection)
    (time1 time2 currentTime : ℚ) : Selection :=
  let progress := (currentTime - time1) / (time2 - time1)
  let easedProgress := if smoothing then easeInOut progress else progress
  { x := lerp selection1.x selection2.x easedProgress
    y := lerp selection1.y selection2.y easedProgress
    width := lerp selection1.width selection2.width easedProgress
    height := lerp selection1.height selection2.height easedProgress
    zoom := lerp selection1.zoom selection2.zoom easedProgress }

/-- The index-finding loop of `FrameRecorder.getInterpolatedSelection`:
walking the sorted timestamp array, it keeps the last index with
`timestamps[i] <= timestamp` as `beforeIndex` and breaks at the first index
with `timestamps[i] >= timestamp` as `afterIndex`.  The source stores array
indices and immediately dereferences them as `timestamps[i]`; since `Map`
keys are distinct, index equality coincides with timestamp equality, so the
embedding carries the timestamps themselves. -/
def findSurround (t : ℚ) : List ℚ → Option ℚ → Option ℚ × Option ℚ
  | [], before => (before, none)
  | ts :: rest, before =>
    let before' := if ts ≤ t then some ts else before
    if t ≤ ts then (before', some ts) else findSurround t rest before'

/-- The `timestamps` array of `getInterpolatedSelection`:
`Array.from(this.keyframes.keys()).sort((a, b) => a - b)`, i.e. the map's
keys sorted ascending. -/
def sortedKeys (kfs : KeyframeMap) : List ℚ :=
  List.insertionSort (· ≤ ·) (kfs.map Prod.fst)

/-- Embedding of `FrameRecorder.getInterpolatedSelection(timestamp)`.  The timestamp keys
are sorted ascending (`sort((a, b) => a - b)`), the surrounding keyframes
are located, and the branch order of the source is kept: exact match first,
then no keyframes, then only-after, then only-before, else interpolation. -/
def getInterpolatedSelection (smoothing : Bool) (kfs : KeyframeMap) (t : ℚ) :
    Option Selection :=
  if kfs.isEmpty then none else
  match findSurround t (sortedKeys kfs) none with
  | (some b, some a) =>
      if b = a then mapGet b kfs
      else
        match mapGet b kfs, mapGet a kfs with
        | some s1, some s2 => some (interpolateSelection smoothing s1 s2 b a t)
        | _, _ => none
  | (none, none) => none
  | (none, some a) => mapGet a kfs
  | (some b, none) => mapGet b kfs

/-- Embedding of `FrameRecorder.deleteKeyframe(timestamp)`. -/
def deleteKeyframe (st : RecorderState) (timestamp : ℚ) : RecorderState :=
  if mapHas timestamp st.keyframes then
    { st with keyframes := mapDelete timestamp st.keyframes }
  else st

/-- Embedding of `FrameRecorder.clearKeyframes()`. -/
def clearKeyframes (st : RecorderState) : RecorderState :=
  { st with keyframes := [] }

/-- The ordering on keyframes used by `exportKeyframes`'s
`sort((a, b) => a.timestamp - b.timestamp)`. -/
def pairLe (p q : ℚ × Selection) : Prop := p.1 ≤ q.1

instance : DecidableRel pairLe :=
  fun p q => inferInstanceAs (Decidable (p.1 ≤ q.1))

instance : IsTotal (ℚ × Selection) pairLe :=
  ⟨fun a b => le_total a.1 b.1⟩

instance : IsTrans (ℚ × Selection) pairLe :=
  ⟨fun _ _ _ h1 h2 => le_trans h1 h2⟩

/-- Strict version of `pairLe`, for uniqueness-of-sorted-order arguments. -/
def pairLt (p q : ℚ × Selection) : Prop := p.1 < q.1

instance : IsAntisymm (ℚ × Selection) pairLt :=
  ⟨fun _ _ h1 h2 => absurd (lt_trans h1 h2) (lt_irrefl _)⟩

/-- The result object of `FrameRecorder.exportKeyframes` (the wall-clock
`exportedAt` field is not modelled). -/
structure ExportData where
  keyframes : KeyframeMap
  startTime : ℚ
  endTime : ℚ
  duration : ℚ
  totalKeyframes : ℕ
deriving DecidableEq, Repr

/-- Embedding of `FrameRecorder.exportKeyframes(startTime, endTime)`: iterates the map in
insertion order collecting keyframes with `startTime <= timestamp <= endTime`,
then sorts the collected list ascending by timestamp.  JS
`Array.prototype.sort` is stable; it is modelled with (stable) insertion
sort. -/
def exportKeyframes (st : RecorderState) (startTime endTime : ℚ) : ExportData :=
  let filteredKeyframes :=
    st.keyframes.filter (fun p => decide (startTime ≤ p.1 ∧ p.1 ≤ endTime))
  let sorted := List.insertionSort pairLe filteredKeyframes
  { keyframes := sorted
    startTime := startTime
    endTime := endTime
    duration := endTime - startTime
    totalKeyframes := sorted.length }

/-- Embedding of `FrameRecorder.importKeyframes(keyframesData)`: clears the current track,
then `Map.set`s every imported keyframe at its own timestamp.  No bounds
check is performed on the imported timestamps. -/
def importKeyframes (st : RecorderState) (data : KeyframeMap) : RecorderState :=
  let cleared := clearKeyframes st
  { cleared with keyframes := data.foldl (fun m p => mapSet p.1 p.2 m) cleared.keyframes }

/-- Embedding of `SelectionController.constrainToCanvas()`; the canvas dimensions are
passed explicitly.  The source's assignments are sequential, so the clamped
`x`/`y` feed the width/height clamps. -/
def constrainToCanvas (cw ch : ℚ) (s : Selection) : Selection :=
  let x := max 0 (min (cw - s.width) s.x)
  let y := max 0 (min (ch - s.height) s.y)
  let width := min s.width (cw - x)
  let height := min s.height (ch - y)
  { s with x := x, y := y, width := width, height := height }

/-- Embedding of `SelectionController.applyZoom(newZoom)` (the canvas redraw is not
modelled). -/
def applyZoom (cw ch : ℚ) (s : Selection) (newZoom : ℚ) : Selection :=
  let zoomRatio := newZoom / s.zoom
  let centerX := s.x + s.width / 2
  let centerY := s.y + s.height / 2
  let width := s.width * zoomRatio
  let height := s.height * zoomRatio
  let x := centerX - width / 2
  let y := centerY - height / 2
  constrainToCanvas cw ch { x := x, y := y, width := width, height := height, zoom := newZoom }

/-- Embedding of `SelectionController.handleWheel(event)`: the event is reduced to its
`deltaY`; the `onSelectionChanged` notification is not modelled. -/
def handleWheel (cw ch : ℚ) (s : Selection) (deltaY : ℚ) : Selection :=
  let zoomDelta := if deltaY > 0 then -ZOOM_SENSITIVITY else ZOOM_SENSITIVITY
  let newZoom := max MIN_ZOOM (min MAX_ZOOM (s.zoom + zoomDelta))
  if newZoom ≠ s.zoom then applyZoom cw ch s newZoom else s

/-- Embedding of `VideoRenderer.render`: the keyframes are re-timestamped relative to the
trim start (`timestamp: kf.timestamp - trimStart`). -/
def relativeKeyframes (kfs : KeyframeMap) (trimStart : ℚ) : KeyframeMap :=
  kfs.map (fun kf => (kf.1 - trimStart, kf.2))

/-- One `if(gte(t,threshold),value,dflt)` entry of a zoompan expression
chain built by `VideoRenderer.render`. -/
structure GuardedValue where
  threshold : ℚ
  value : ℚ
  dflt : ℚ
deriving DecidableEq, Repr

/-- The meaning of a single `if(gte(t,ts),v,d)` ffmpeg expression at render
time `t`. -/
def evalGuard (g : GuardedValue) (t : ℚ) : ℚ :=
  if g.threshold ≤ t then g.value else g.dflt

/-- The `z` (zoom) expression chain built by `VideoRenderer.render`: one
`if(gte(t,kf.timestamp),kf.selection.zoom,1)` entry per trim-relative
keyframe, joined with `:` into a single quoted option value. -/
def zoomChain (kfs : KeyframeMap) (trimStart : ℚ) : List GuardedValue :=
  (relativeKeyframes kfs trimStart).map (fun kf => ⟨kf.1, kf.2.zoom, 1⟩)

/-- Evaluation of a chain of guarded expressions as a sequence whose value
is the last entry's value (the reading closest to ffmpeg's expression
sequencing); the default when the chain is empty. -/
def evalChainLast (gs : List GuardedValue) (dflt t : ℚ) : ℚ :=
  match gs.getLast? with
  | some g => evalGuard g t
  | none => dflt

/-- Modelled from the spec: the render engine itself (ffmpeg) is not part of
this repository, so the intended per-frame semantics is taken from the
spec's words — "for any render time `t` within `[0, trimmed duration)`,
zoom/x/y equal the value of the latest keyframe at or before `t`" — as a
zero-order hold over the trim-relative keyframes, with default zoom `1`
before the first keyframe. -/
def zohZoom (kfs : KeyframeMap) (t : ℚ) : ℚ :=
  match ((List.insertionSort pairLe kfs).filter (fun p => decide (p.1 ≤ t))).getLast? with
  | some p => p.2.zoom
  | none => 1

/-! ### Helper lemmas about the keyframe map -/

theorem mapGet_isSome_of_mem_keys {ts : ℚ} {m : KeyframeMap}
    (h : ts ∈ m.map Prod.fst) : (mapGet ts m).isSome := by
  induction m with
  | nil => simp at h
  | cons p rest ih =>
    obtain ⟨k, v⟩ := p
    rw [mapGet]
    by_cases hk : k = ts
    · simp [hk]
    · simp only [List.map_cons, List.mem_cons] at h
      rcases h with h | h
      · exact absurd h.symm hk
      · simpa [hk] using ih h

theorem mapGet_eq_of_mem {ts : ℚ} {sel : Selection} {m : KeyframeMap}
    (hmem : (ts, sel) ∈ m) (hnd : (m.map Prod.fst).Nodup) :
    mapGet ts m = some sel := by
  induction m with
  | nil => simp at hmem
  | cons p rest ih =>
    obtain ⟨k, v⟩ := p
    simp only [List.map_cons, List.nodup_cons] at hnd
    rw [mapGet]
    rcases List.mem_cons.mp hmem with h | h
    · injection h with h1 h2
      subst h1
      subst h2
      simp
    · by_cases hk : k = ts
      · subst hk
        exact absurd (List.mem_map.mpr ⟨(k, sel), h, rfl⟩) hnd.1
      · simpa [hk] using ih h hnd.2

theorem mapGet_mapSet_self (ts : ℚ) (v : Selection) (m : KeyframeMap) :
    mapGet ts (mapSet ts v m) = some v := by
  induction m with
  | nil => simp [mapSet, mapGet]
  | cons p rest ih =>
    obtain ⟨k, w⟩ := p
    rw [mapSet]
    by_cases hk : k = ts
    · simp [hk, mapGet]
    · simpa [hk, mapGet] using ih

theorem length_mapSet_le (ts : ℚ) (v : Selection) (m : KeyframeMap) :
    (mapSet ts v m).length ≤ m.length + 1 := by
  induction m with
  | nil => simp [mapSet]
  | cons p rest ih =>
    obtain ⟨k, w⟩ := p
    rw [mapSet]
    by_cases hk : k = ts
    · simp [hk]
    · simpa [hk] using Nat.succ_le_succ ih

theorem mem_mapSet {p : ℚ × Selection} {ts : ℚ} {v : Selection} {m : KeyframeMap}
    (h : p ∈ mapSet ts v m) : p = (ts, v) ∨ p ∈ m := by
  induction m with
  | nil => simpa [mapSet] using h
  | cons q rest ih =>
    obtain ⟨k, w⟩ := q
    rw [mapSet] at h
    by_cases hk : k = ts
    · subst hk
      rw [if_pos rfl] at h
      rcases List.mem_cons.mp h with h1 | h1
      · exact Or.inl h1
      · exact Or.inr (List.mem_cons_of_mem _ h1)
    · simp only [if_neg hk, List.mem_cons] at h
      rcases h with h | h
      · exact Or.inr (List.mem_cons.mpr (Or.inl h))
      · rcases ih h with h' | h'
        · exact Or.inl h'
        · exact Or.inr (List.mem_cons_of_mem _ h')

theorem mem_mapDelete {p : ℚ × Selection} {ts : ℚ} {m : KeyframeMap}
    (h : p ∈ mapDelete ts m) : p ∈ m := by
  induction m with
  | nil => simpa [mapDelete] using h
  | cons q rest ih =>
    obtain ⟨k, w⟩ := q
    rw [mapDelete] at h
    by_cases hk : k = ts
    · rw [if_pos hk] at h
      exact List.mem_cons_of_mem _ h
    · rw [if_neg hk] at h
      rcases List.mem_cons.mp h with h' | h'
      · exact List.mem_cons.mpr (Or.inl h')
      · exact List.mem_cons_of_mem _ (ih h')

/-! ### Shared demo values -/

/-- Demo selection used by concrete witnesses. -/
def demoSelA : Selection := ⟨0, 0, 100, 100, 1⟩

/-- Demo selection used by concrete witnesses. -/
def demoSelB : Selection := ⟨100, 0, 100, 100, 1⟩

/-- A demo recorder state that is mid-recording with one stored keyframe. -/
def demoRecState : RecorderState :=
  { isRecording := true, keyframes := [(1, demoSelA)], currentTime := 1,
    videoDuration := 10, lastKeyframeTime := 1 }

/-- Demo keyframe selection with zoom 2, for the renderer claims. -/
def demoZoom2 : Selection := ⟨0, 0, 100, 100, 2⟩

/-- Demo keyframe selection with zoom 3, for the renderer claims. -/
def demoZoom3 : Selection := ⟨0, 0, 100, 100, 3⟩

/-! ### Claim theorems -/

/-- C8: with exactly two keyframes, at `t = 1.0` with selection
`{x:0, y:0, width:100, height:100, zoom:1}` and at `t = 3.0` with selection
`{x:100, y:0, width:100, height:100, zoom:1}`, `interpolate(2.0)` without
smoothing returns `{x:50, y:0, width:100, height:100, zoom:1}`, each numeric
field being linearly interpolated with
`progress = (t − tBefore) / (tAfter − tBefore)`. -/
theorem C8_two_keyframe_midpoint :
    getInterpolatedSelection false [(1, demoSelA), (3, demoSelB)] 2 =
      some ⟨50, 0, 100, 100, 1⟩ := by
  norm_num [getInterpolatedSelection, sortedKeys, findSurround, mapGet,
    interpolateSelection, lerp, demoSelA, demoSelB, Selection.mk.injEq]

/-- C3 (code bug): the zoompan instruction chain built by
`VideoRenderer.render` is not a zero-order hold.  For keyframes at relative
timestamps `0` (zoom 2) and `5` (zoom 3), the builder emits the flat guard
chain `if(gte(t,0),2,1) : if(gte(t,5),3,1)`, each entry falling back to the
constant default `1` rather than to the previous keyframe's value: at render
time `t = 2` the latest keyframe at or before `t` has zoom `2`, but the
chain evaluated as an expression sequence (value of the last entry) yields
`1`; and at `t = 6` the latest keyframe has zoom `3`, while the first
entry evaluates to `2`.  So no reading of the flat chain equals the
latest-at-or-before step function. -/
theorem C3_zoompan_chain_not_zero_order_hold :
    zoomChain [(0, demoZoom2), (5, demoZoom3)] 0 =
      [⟨0, 2, 1⟩, ⟨5, 3, 1⟩]
    ∧ zohZoom [(0, demoZoom2), (5, demoZoom3)] 2 = 2
    ∧ evalChainLast (zoomChain [(0, demoZoom2), (5, demoZoom3)] 0) 1 2 = 1
    ∧ zohZoom [(0, demoZoom2), (5, demoZoom3)] 6 = 3
    ∧ evalGuard ⟨0, 2, 1⟩ 6 = 2 := by
  refine ⟨?_, ?_, ?_, ?_, ?_⟩ <;>
    norm_num [zoomChain, relativeKeyframes, zohZoom, evalChainLast, evalGuard,
      pairLe, demoZoom2, demoZoom3, List.filter_cons, GuardedValue.mk.injEq]

/-- C4 counterexample: `startRecording` called on a state that is already
recording returns normally with the state unchanged (`Except.ok`); it does
not fail with an `InvalidState` (or any) error. -/
theorem C4_counterexample_silent_return :
    startRecording demoRecState 5 = Except.ok demoRecState := by
  simp [startRecording, demoRecState]

/-- C4 (amended): `startRecording(videoDuration)` called while a recording
is already in progress is a silent no-op: it returns normally without
raising any error and leaves the recorder's state (stored keyframes, video
duration, recording flag, `lastKeyframeTime`) unchanged. -/
theorem C4_already_recording_noop (st : RecorderState) (d : ℚ)
    (h : st.isRecording = true) :
    startRecording st d = Except.ok st := by
  simp [startRecording, h]

/-- Witness for C4: the amended theorem applied at a concrete mid-recording
state. -/
theorem C4_already_recording_noop_witness :
    startRecording demoRecState 7 = Except.ok demoRecState :=
  C4_already_recording_noop demoRecState 7 (by simp [demoRecState])

/-- C7: for every trim range and every keyframe falling inside it, the
export parameter builder re-timestamps the keyframe onto a trim-relative
timeline via `relativeT = t − trimStart`; in particular a keyframe at
`t = 5` under `TrimRange{start:2, end:8}` is emitted with relative export
timestamp `3`. -/
theorem C7_trim_relative_timestamps (kfs : KeyframeMap) (trimStart trimEnd t : ℚ)
    (sel : Selection) (hmem : (t, sel) ∈ kfs)
    (h1 : trimStart ≤ t) (h2 : t ≤ trimEnd) :
    (t - trimStart, sel) ∈ relativeKeyframes kfs trimStart
    ∧ relativeKeyframes [(5, sel)] 2 = [(3, sel)] := by
  constructor
  · exact List.mem_map.mpr ⟨(t, sel), hmem, rfl⟩
  · norm_num [relativeKeyframes]

/-- Witness for C7: the keyframe at `t = 5` under trim start `2` appears
re-timestamped at `3`. -/
theorem C7_trim_relative_timestamps_witness :
    ((5 : ℚ) - 2, demoSelA) ∈ relativeKeyframes [(5, demoSelA)] 2 :=
  (C7_trim_relative_timestamps [(5, demoSelA)] 2 8 5 demoSelA (by simp)
    (by norm_num) (by norm_num)).1

/-- C10: the ease-in-out smoothing curve fixes the endpoints and midpoint of
the progress interval — `easeInOut 0 = 0`, `easeInOut 1 = 1` and
`easeInOut (1/2) = 1/2` — so for every pair of bounding keyframes,
interpolation with smoothing enabled returns exactly the same selection as
unsmoothed linear interpolation at the two keyframe timestamps and at the
temporal midpoint between them. -/
theorem C10_easeInOut_fixed_points (s1 s2 : Selection) (t1 t2 : ℚ)
    (h : t1 < t2) :
    easeInOut 0 = 0 ∧ easeInOut 1 = 1 ∧ easeInOut (1 / 2) = 1 / 2
    ∧ interpolateSelection true s1 s2 t1 t2 t1 =
        interpolateSelection false s1 s2 t1 t2 t1
    ∧ interpolateSelection true s1 s2 t1 t2 t2 =
        interpolateSelection false s1 s2 t1 t2 t2
    ∧ interpolateSelection true s1 s2 t1 t2 ((t1 + t2) / 2) =
        interpolateSelection false s1 s2 t1 t2 ((t1 + t2) / 2) := by
  have hne : t2 - t1 ≠ 0 := sub_ne_zero.mpr (ne_of_gt h)
  have e0 : easeInOut 0 = 0 := by norm_num [easeInOut]
  have e1 : easeInOut 1 = 1 := by norm_num [easeInOut]
  have eh : easeInOut (1 / 2) = 1 / 2 := by norm_num [easeInOut]
  have p1 : (t1 - t1) / (t2 - t1) = 0 := by rw [sub_self, zero_div]
  have p2 : (t2 - t1) / (t2 - t1) = 1 := div_self hne
  have pm : ((t1 + t2) / 2 - t1) / (t2 - t1) = 1 / 2 := by
    field_simp
    ring
  have ehi : easeInOut (2⁻¹ : ℚ) = 2⁻¹ := by norm_num [easeInOut]
  refine ⟨e0, e1, eh, ?_, ?_, ?_⟩
  · simp [interpolateSelection, p1, e0]
  · simp [interpolateSelection, p2, e1]
  · simp [interpolateSelection, pm, eh, ehi]

/-- Witness for C10: smoothing agrees with linear interpolation at the left
keyframe timestamp of a concrete keyframe pair. -/
theorem C10_easeInOut_fixed_points_witness :
    interpolateSelection true demoSelA demoSelB 0 1 0 =
      interpolateSelection false demoSelA demoSelB 0 1 0 :=
  (C10_easeInOut_fixed_points demoSelA demoSelB 0 1 (by norm_num)).2.2.2.1

/-- C9: a wheel-zoom whose delta leaves the clamped zoom value unchanged
(for example at a `MIN_ZOOM`/`MAX_ZOOM` saturation point) is a no-op on the
selection rectangle, and after any zoom application followed by bounds
clamping the selection satisfies `width ≤ canvasWidth` and
`height ≤ canvasHeight`. -/
theorem C9_wheel_zoom_noop_and_bounds (cw ch : ℚ) (s : Selection)
    (deltaY newZoom : ℚ)
    (hsame : max MIN_ZOOM (min MAX_ZOOM
      (s.zoom + (if deltaY > 0 then -ZOOM_SENSITIVITY else ZOOM_SENSITIVITY))) = s.zoom) :
    handleWheel cw ch s deltaY = s
    ∧ (applyZoom cw ch s newZoom).width ≤ cw
    ∧ (applyZoom cw ch s newZoom).height ≤ ch := by
  refine ⟨?_, ?_, ?_⟩
  · simp [handleWheel, hsame]
  · simp only [applyZoom, constrainToCanvas]
    have hx : (0 : ℚ) ≤ max 0 (min (cw - s.width * (newZoom / s.zoom))
        (s.x + s.width / 2 - s.width * (newZoom / s.zoom) / 2)) := le_max_left 0 _
    have hmin := min_le_right (s.width * (newZoom / s.zoom))
      (cw - max 0 (min (cw - s.width * (newZoom / s.zoom))
        (s.x + s.width / 2 - s.width * (newZoom / s.zoom) / 2)))
    linarith
  · simp only [applyZoom, constrainToCanvas]
    have hy : (0 : ℚ) ≤ max 0 (min (ch - s.height * (newZoom / s.zoom))
        (s.y + s.height / 2 - s.height * (newZoom / s.zoom) / 2)) := le_max_left 0 _
    have hmin := min_le_right (s.height * (newZoom / s.zoom))
      (ch - max 0 (min (ch - s.height * (newZoom / s.zoom))
        (s.y + s.height / 2 - s.height * (newZoom / s.zoom) / 2)))
    linarith

/-- Witness for C9: at the `MAX_ZOOM` saturation point, a zoom-in wheel
event leaves a concrete selection unchanged, and a concrete zoom
application stays inside the canvas. -/
theorem C9_wheel_zoom_noop_and_bounds_witness :
    handleWheel 800 450 ⟨0, 0, 100, 100, 3⟩ (-1) = ⟨0, 0, 100, 100, 3⟩
    ∧ (applyZoom 800 450 ⟨0, 0, 100, 100, 3⟩ 2).width ≤ 800 := by
  have h := C9_wheel_zoom_noop_and_bounds 800 450 ⟨0, 0, 100, 100, 3⟩ (-1) 2
    (by norm_num [MIN_ZOOM, MAX_ZOOM, ZOOM_SENSITIVITY])
  exact ⟨h.1, h.2.1⟩

/-- The bounds invariant of the keyframe track: every stored timestamp lies
within `[0, videoDuration]`. -/
def InBounds (st : RecorderState) : Prop :=
  ∀ p ∈ st.keyframes, 0 ≤ p.1 ∧ p.1 ≤ st.videoDuration

/-- C5 counterexample: importing a keyframe at timestamp `99` into a track
whose video duration is `10` stores the out-of-bounds timestamp unchanged —
`importKeyframes` performs no bounds check, contrary to the claim. -/
theorem C5_counterexample_import_unbounded :
    (importKeyframes demoRecState [(99, demoSelA)]).keyframes = [(99, demoSelA)]
    ∧ (importKeyframes demoRecState [(99, demoSelA)]).videoDuration < 99 := by
  constructor
  · simp [importKeyframes, clearKeyframes, mapSet, demoRecState]
  · norm_num [importKeyframes, clearKeyframes, demoRecState]

/-- C5 (amended): after every sequence of keyframe-track operations **other
than import** (`startRecording`, `record`, `deleteKeyframe`,
`clearKeyframes`), every timestamp stored in the track lies within
`[0, videoDuration]`: `record` silently rejects timestamps outside this
bound and the remaining operations only remove entries.  `importKeyframes`
performs **no** bounds check and can insert timestamps outside
`[0, duration]`. -/
theorem C5_bounds_invariant_without_import (st : RecorderState)
    (hst : InBounds st) :
    (∀ d st', startRecording st d = Except.ok st' → InBounds st')
    ∧ (∀ t sel, InBounds (recordKeyframe st t sel))
    ∧ (∀ t, InBounds (deleteKeyframe st t))
    ∧ InBounds (clearKeyframes st) := by
  refine ⟨?_, ?_, ?_, ?_⟩
  · intro d st' hok
    rw [startRecording] at hok
    by_cases hrec : st.isRecording
    · rw [if_pos hrec] at hok
      injection hok with hok
      exact hok ▸ hst
    · rw [if_neg hrec] at hok
      injection hok with hok
      intro p hp
      rw [← hok] at hp
      simp at hp
  · intro t sel
    rw [recordKeyframe]
    split
    · exact hst
    · split
      · exact hst
      · dsimp only
        split
        · exact hst
        · rename_i hb _
          intro p hp
          simp only at hp
          rcases mem_mapSet hp with rfl | hp'
          · push_neg at hb
            exact ⟨hb.1, hb.2⟩
          · exact hst p hp'
  · intro ts
    rw [deleteKeyframe]
    split
    · intro p hp
      exact hst p (mem_mapDelete hp)
    · exact hst
  · intro p hp
    simp [clearKeyframes] at hp

/-- Witness for C5's amended theorem: the invariant is preserved by
`clearKeyframes` on a concrete in-bounds state. -/
theorem C5_bounds_invariant_without_import_witness :
    InBounds (clearKeyframes demoRecState) :=
  (C5_bounds_invariant_without_import demoRecState
    (by norm_num [InBounds, demoRecState])).2.2.2

/-- If a keyframe list is sorted by `pairLe` and its timestamps are distinct,
it is strictly sorted by `pairLt`. -/
theorem sorted_pairLt_of_sorted_nodup {l : KeyframeMap}
    (hs : List.Sorted pairLe l) (hnd : (l.map Prod.fst).Nodup) :
    List.Sorted pairLt l := by
  have hnd' : l.Pairwise (fun p q : ℚ × Selection => p.1 ≠ q.1) :=
    List.pairwise_map.mp hnd
  exact (hs.and hnd').imp fun hpq => lt_of_le_of_ne hpq.1 hpq.2

/-- C6: for every track state and all bounds `start ≤ end`,
`exportKeyframes(start, end)` returns exactly the keyframes whose timestamp
satisfies `start ≤ timestamp ≤ end` (inclusive on both ends), sorted in
ascending timestamp order regardless of the order in which they were
inserted (two tracks whose maps hold the same keyframes in any insertion
order export identically), and leaves the track unmodified (the embedding
is a pure function of the state). -/
theorem C6_export_inclusive_sorted (st : RecorderState) (s e : ℚ)
    (hse : s ≤ e) :
    (∀ p : ℚ × Selection, p ∈ (exportKeyframes st s e).keyframes ↔
      (p ∈ st.keyframes ∧ s ≤ p.1 ∧ p.1 ≤ e))
    ∧ List.Sorted pairLe (exportKeyframes st s e).keyframes
    ∧ (∀ st' : RecorderState, (st.keyframes.map Prod.fst).Nodup →
        List.Perm st.keyframes st'.keyframes →
        (exportKeyframes st' s e).keyframes = (exportKeyframes st s e).keyframes) := by
  refine ⟨?_, ?_, ?_⟩
  · intro p
    constructor
    · intro hp
      have hp' : p ∈ st.keyframes.filter
          (fun p => decide (s ≤ p.1 ∧ p.1 ≤ e)) :=
        (List.perm_insertionSort pairLe _).mem_iff.mp hp
      have := List.mem_filter.mp hp'
      exact ⟨this.1, of_decide_eq_true this.2⟩
    · intro ⟨hmem, hb1, hb2⟩
      exact (List.perm_insertionSort pairLe _).mem_iff.mpr
        (List.mem_filter.mpr ⟨hmem, decide_eq_true ⟨hb1, hb2⟩⟩)
  · exact List.sorted_insertionSort pairLe _
  · intro st' hnd hp
    have hfilter : List.Perm
        (st.keyframes.filter (fun p => decide (s ≤ p.1 ∧ p.1 ≤ e)))
        (st'.keyframes.filter (fun p => decide (s ≤ p.1 ∧ p.1 ≤ e))) :=
      hp.filter _
    have hndf : ((st.keyframes.filter
        (fun p => decide (s ≤ p.1 ∧ p.1 ≤ e))).map Prod.fst).Nodup :=
      hnd.sublist ((List.filter_sublist _).map Prod.fst)
    have hndf' : ((st'.keyframes.filter
        (fun p => decide (s ≤ p.1 ∧ p.1 ≤ e))).map Prod.fst).Nodup :=
      ((hfilter.map Prod.fst).nodup_iff).mp hndf
    have hnds : (((List.insertionSort pairLe (st.keyframes.filter
        (fun p => decide (s ≤ p.1 ∧ p.1 ≤ e))))).map Prod.fst).Nodup :=
      (((List.perm_insertionSort pairLe _).map Prod.fst).nodup_iff).mpr hndf
    have hnds' : (((List.insertionSort pairLe (st'.keyframes.filter
        (fun p => decide (s ≤ p.1 ∧ p.1 ≤ e))))).map Prod.fst).Nodup :=
      (((List.perm_insertionSort pairLe _).map Prod.fst).nodup_iff).mpr hndf'
    have hpermsort : List.Perm
        (List.insertionSort pairLe (st'.keyframes.filter
          (fun p => decide (s ≤ p.1 ∧ p.1 ≤ e))))
        (List.insertionSort pairLe (st.keyframes.filter
          (fun p => decide (s ≤ p.1 ∧ p.1 ≤ e)))) :=
      ((List.perm_insertionSort pairLe _).trans hfilter.symm).trans
        (List.perm_insertionSort pairLe _).symm
    exact List.eq_of_perm_of_sorted hpermsort
      (sorted_pairLt_of_sorted_nodup (List.sorted_insertionSort pairLe _) hnds')
      (sorted_pairLt_of_sorted_nodup (List.sorted_insertionSort pairLe _) hnds)

/-- Witness for C6: the keyframe at timestamp `1` of a concrete track is
exported by `exportKeyframes 0 10`. -/
theorem C6_export_inclusive_sorted_witness :
    (1, demoSelA) ∈ (exportKeyframes demoRecState 0 10).keyframes :=
  ((C6_export_inclusive_sorted demoRecState 0 10 (by norm_num)).1
    (1, demoSelA)).mpr ⟨by simp [demoRecState], by norm_num, by norm_num⟩

/-- The spacing threshold `minInterval` is positive. -/
theorem minInterval_pos : 0 < minInterval := by
  norm_num [minInterval, KEYFRAME_INTERVAL]

/-- An in-bounds `recordKeyframe` call on a recording state with the drop
condition false performs the insertion. -/
theorem recordKeyframe_insert {st : RecorderState} {t : ℚ} (sel : Selection)
    (hrec : st.isRecording = true) (h0 : 0 ≤ t) (hd : t ≤ st.videoDuration)
    (hcond : ¬(t - st.lastKeyframeTime < minInterval
      ∧ mapHas st.lastKeyframeTime st.keyframes = true)) :
    recordKeyframe st t sel =
      { st with keyframes := mapSet t sel st.keyframes,
                lastKeyframeTime := t, currentTime := t } := by
  have hb : ¬(t < 0 ∨ t > st.videoDuration) := by
    push_neg
    exact ⟨h0, hd⟩
  rw [recordKeyframe, hrec]
  simp only [Bool.not_true, Bool.false_eq_true, if_false, if_neg hb, if_neg hcond]

/-- An in-bounds `recordKeyframe` call on a recording state with the drop
condition true leaves the state unchanged. -/
theorem recordKeyframe_drop {st : RecorderState} {t : ℚ} (sel : Selection)
    (hrec : st.isRecording = true)
    (hcond : t - st.lastKeyframeTime < minInterval
      ∧ mapHas st.lastKeyframeTime st.keyframes = true) :
    recordKeyframe st t sel = st := by
  rw [recordKeyframe, hrec]
  simp only [Bool.not_true, Bool.false_eq_true, if_false]
  by_cases hb : t < 0 ∨ t > st.videoDuration
  · rw [if_pos hb]
  · rw [if_neg hb]
    exact if_pos hcond

/-- A single `recordKeyframe` call grows the track by at most one entry. -/
theorem recordKeyframe_length_le (st : RecorderState) (t : ℚ) (sel : Selection) :
    (recordKeyframe st t sel).keyframes.length ≤ st.keyframes.length + 1 := by
  rw [recordKeyframe]
  split
  · exact Nat.le_succ_of_le (le_refl _)
  · split
    · exact Nat.le_succ_of_le (le_refl _)
    · dsimp only
      split
      · exact Nat.le_succ_of_le (le_refl _)
      · exact length_mapSet_le ..

/-- A run of `recordKeyframe` calls grows the track by at most the number of
calls. -/
theorem recordAll_length_le (calls : List (ℚ × Selection)) :
    ∀ st : RecorderState,
      (recordAll st calls).keyframes.length ≤ st.keyframes.length + calls.length := by
  induction calls with
  | nil =>
    intro st
    simp [recordAll]
  | cons c cs ih =>
    intro st
    have h1 := recordKeyframe_length_le st c.1 c.2
    have h2 := ih (recordKeyframe st c.1 c.2)
    rw [recordAll, List.foldl_cons]
    calc (List.foldl (fun s c => recordKeyframe s c.1 c.2)
            (recordKeyframe st c.1 c.2) cs).keyframes.length
        ≤ (recordKeyframe st c.1 c.2).keyframes.length + cs.length := h2
      _ ≤ st.keyframes.length + 1 + cs.length := by omega
      _ = st.keyframes.length + (c :: cs).length := by simp; omega

/-- C2: while recording, a `record(timestamp, selection)` call with an
in-bounds timestamp is dropped (state unchanged) if and only if
`timestamp − lastKeyframeTime < minInterval` and a keyframe already exists
at `lastKeyframeTime`; otherwise the keyframe is inserted (overwriting any
keyframe at the identical timestamp, via `mapSet`) and `lastKeyframeTime`
is updated to `timestamp`.  The first sample of a session is always stored,
and a stream of at least two calls spaced closer than `minInterval` yields
strictly fewer stored entries than calls issued. -/
theorem C2_minimum_spacing_policy :
    (∀ (st : RecorderState) (t : ℚ) (sel : Selection),
      st.isRecording = true → 0 ≤ t → t ≤ st.videoDuration →
      ((recordKeyframe st t sel = st) ↔
        (t - st.lastKeyframeTime < minInterval
          ∧ mapHas st.lastKeyframeTime st.keyframes = true)))
    ∧ (∀ (st : RecorderState) (t : ℚ) (sel : Selection),
      st.isRecording = true → 0 ≤ t → t ≤ st.videoDuration →
      ¬(t - st.lastKeyframeTime < minInterval
          ∧ mapHas st.lastKeyframeTime st.keyframes = true) →
      recordKeyframe st t sel =
        { st with keyframes := mapSet t sel st.keyframes,
                  lastKeyframeTime := t, currentTime := t })
    ∧ (∀ (st st' : RecorderState) (d t : ℚ) (sel : Selection),
      st.isRecording = false → startRecording st d = Except.ok st' →
      0 ≤ t → t ≤ d →
      (recordKeyframe st' t sel).keyframes = [(t, sel)])
    ∧ (∀ (st : RecorderState) (calls : List (ℚ × Selection)),
      st.isRecording = true → st.keyframes = [] →
      (∀ c ∈ calls, 0 ≤ c.1 ∧ c.1 ≤ st.videoDuration) →
      List.Chain' (fun c c' : ℚ × Selection => c'.1 - c.1 < minInterval) calls →
      2 ≤ calls.length →
      (recordAll st calls).keyframes.length < calls.length) := by
  refine ⟨?_, ?_, ?_, ?_⟩
  · intro st t sel hrec h0 hd
    constructor
    · intro heq
      by_contra hcond
      have hins := recordKeyframe_insert sel hrec h0 hd hcond
      rw [heq] at hins
      by_cases hlast : t = st.lastKeyframeTime
      · have hkf : st.keyframes = mapSet t sel st.keyframes :=
          congrArg RecorderState.keyframes hins
        have hhas : mapHas st.lastKeyframeTime st.keyframes = true := by
          rw [← hlast, mapHas, hkf, mapGet_mapSet_self]
          rfl
        exact hcond ⟨by rw [hlast]; simpa using minInterval_pos, hhas⟩
      · exact hlast (congrArg RecorderState.lastKeyframeTime hins).symm
    · intro hcond
      exact recordKeyframe_drop sel hrec hcond
  · intro st t sel hrec h0 hd hcond
    exact recordKeyframe_insert sel hrec h0 hd hcond
  · intro st st' d t sel hrec hok h0 hd
    rw [startRecording, if_neg (by simp [hrec])] at hok
    injection hok with hok
    subst hok
    rw [recordKeyframe_insert sel rfl h0 hd (by simp [mapHas, mapGet])]
    simp [mapSet]
  · intro st calls hrec hkf hbounds hchain hlen
    cases calls with
    | nil => simp at hlen
    | cons c0 tl =>
    cases tl with
    | nil => simp at hlen
    | cons c1 rest =>
      have hb0 := hbounds c0 (List.mem_cons_self c0 _)
      have hb1 := hbounds c1 (List.mem_cons_of_mem _ (List.mem_cons_self c1 _))
      have hrel : c1.1 - c0.1 < minInterval := (List.chain'_cons.mp hchain).1
      have hs1 : recordKeyframe st c0.1 c0.2 =
          { st with keyframes := mapSet c0.1 c0.2 st.keyframes,
                    lastKeyframeTime := c0.1, currentTime := c0.1 } :=
        recordKeyframe_insert c0.2 hrec hb0.1 hb0.2
          (by rw [hkf]; simp [mapHas, mapGet])
      have hs1kf : (recordKeyframe st c0.1 c0.2).keyframes = [(c0.1, c0.2)] := by
        rw [hs1, hkf]
        simp [mapSet]
      have hs2 : recordKeyframe (recordKeyframe st c0.1 c0.2) c1.1 c1.2 =
          recordKeyframe st c0.1 c0.2 := by
        apply recordKeyframe_drop c1.2
        · rw [hs1]
          exact hrec
        · constructor
          · rw [hs1]
            exact hrel
          · rw [hs1]
            simp [mapHas, hkf, mapSet, mapGet]
      have hfold : recordAll st (c0 :: c1 :: rest) =
          recordAll (recordKeyframe st c0.1 c0.2) rest := by
        simp only [recordAll, List.foldl_cons]
        rw [hs2]
      have hle := recordAll_length_le rest (recordKeyframe st c0.1 c0.2)
      have hlen2 : (c0 :: c1 :: rest).length = rest.length + 2 := by
        simp
      rw [hfold, hlen2]
      rw [hs1kf] at hle
      simp only [List.length_cons, List.length_nil] at hle
      omega

/-- Witness for C2: the first sample of a fresh recording session is always
stored. -/
theorem C2_minimum_spacing_policy_witness :
    (recordKeyframe { isRecording := true, keyframes := [], currentTime := 0,
                      videoDuration := 10, lastKeyframeTime := 0 }
      1 demoSelA).keyframes = [(1, demoSelA)] :=
  C2_minimum_spacing_policy.2.2.1
    { isRecording := false, keyframes := [], currentTime := 0,
      videoDuration := 0, lastKeyframeTime := 0 } _ 10 1 demoSelA rfl
    (by simp [startRecording]) (by norm_num) (by norm_num)

/-! ### Facts about the sorted timestamp array and the surround search -/

theorem sortedKeys_perm (kfs : KeyframeMap) :
    List.Perm (sortedKeys kfs) (kfs.map Prod.fst) :=
  List.perm_insertionSort _ _

theorem sortedKeys_sorted (kfs : KeyframeMap) :
    List.Sorted (· ≤ ·) (sortedKeys kfs) :=
  List.sorted_insertionSort _ _

theorem sortedKeys_ne_nil {kfs : KeyframeMap} (h : kfs ≠ []) :
    sortedKeys kfs ≠ [] := by
  intro hcon
  have hp := (sortedKeys_perm kfs).symm
  rw [hcon] at hp
  exact h (List.map_eq_nil_iff.mp hp.eq_nil)

theorem sortedKeys_strict {kfs : KeyframeMap}
    (hnd : (kfs.map Prod.fst).Nodup) :
    List.Sorted (· < ·) (sortedKeys kfs) := by
  have hnd' : (sortedKeys kfs).Nodup := (sortedKeys_perm kfs).nodup_iff.mpr hnd
  exact ((sortedKeys_sorted kfs).and hnd').imp fun h => lt_of_le_of_ne h.1 h.2

/-- The surround search on a strictly sorted timestamp array containing `t`
returns the exact match on both sides. -/
theorem findSurround_exact {t : ℚ} :
    ∀ (l : List ℚ) (b : Option ℚ), List.Sorted (· < ·) l → t ∈ l →
      findSurround t l b = (some t, some t) := by
  intro l
  induction l with
  | nil =>
    intro b _ hmem
    simp at hmem
  | cons hd rest ih =>
    intro b hs hmem
    rcases List.mem_cons.mp hmem with rfl | hmem'
    · simp only [findSurround]
      rw [if_pos (le_refl t), if_pos (le_refl t)]
    · have hlt : hd < t := (List.sorted_cons.mp hs).1 t hmem'
      simp only [findSurround]
      rw [if_pos (le_of_lt hlt), if_neg (not_le.mpr hlt)]
      exact ih (some hd) (List.sorted_cons.mp hs).2 hmem'

/-- If `t` precedes the head of the timestamp array, the surround search
returns no before-index and the head as the after-timestamp. -/
theorem findSurround_head_gt {t hd : ℚ} (rest : List ℚ) (b : Option ℚ)
    (hlt : t < hd) :
    findSurround t (hd :: rest) b = (b, some hd) := by
  simp only [findSurround]
  rw [if_neg (not_le.mpr hlt), if_pos (le_of_lt hlt)]

/-- If every timestamp is below `t`, the surround search returns the last
timestamp as the before-timestamp and no after-index. -/
theorem findSurround_all_lt {t : ℚ} :
    ∀ (l : List ℚ) (b : Option ℚ), l ≠ [] → (∀ x ∈ l, x < t) →
      findSurround t l b = (l.getLast?, none) := by
  intro l
  induction l with
  | nil =>
    intro b h _
    exact absurd rfl h
  | cons hd rest ih =>
    intro b _ hall
    have hh : hd < t := hall hd (List.mem_cons_self hd rest)
    simp only [findSurround]
    rw [if_pos (le_of_lt hh), if_neg (not_le.mpr hh)]
    cases rest with
    | nil => simp [findSurround]
    | cons h2 rest2 =>
      rw [ih (some hd) (by simp) (fun x hx => hall x (List.mem_cons_of_mem _ hx))]
      rw [List.getLast?_cons_cons]

/-- On a nonempty timestamp array (or with a nonempty accumulator) the
surround search never returns two empty indices. -/
theorem findSurround_ne_none {t : ℚ} :
    ∀ (l : List ℚ) (b : Option ℚ), l ≠ [] ∨ b ≠ none →
      findSurround t l b ≠ (none, none) := by
  intro l
  induction l with
  | nil =>
    intro b hb
    rcases hb with h | h
    · exact absurd rfl h
    · simp only [findSurround]
      intro hcontra
      exact h (congrArg Prod.fst hcontra)
  | cons hd rest ih =>
    intro b _
    simp only [findSurround]
    by_cases hth : t ≤ hd
    · rw [if_pos hth]
      simp
    · rw [if_neg hth]
      rw [if_pos (le_of_not_le hth)]
      exact ih (some hd) (Or.inr (by simp))

/-- The before-timestamp returned by the surround search is an element of
the array, unless it is the accumulator that was passed in. -/
theorem findSurround_fst_mem {t : ℚ} :
    ∀ (l : List ℚ) (b : Option ℚ) (x : ℚ), (findSurround t l b).1 = some x →
      x ∈ l ∨ b = some x := by
  intro l
  induction l with
  | nil =>
    intro b x h
    right
    simpa [findSurround] using h
  | cons hd rest ih =>
    intro b x hx
    simp only [findSurround] at hx
    by_cases hth : t ≤ hd
    · rw [if_pos hth] at hx
      by_cases hht : hd ≤ t
      · rw [if_pos hht] at hx
        simp only at hx
        left
        simp only [Option.some.injEq] at hx
        rw [← hx]
        exact List.mem_cons_self hd rest
      · rw [if_neg hht] at hx
        right
        exact hx
    · rw [if_neg hth] at hx
      rw [if_pos (le_of_not_le hth)] at hx
      rcases ih (some hd) x hx with hm | hb
      · left
        exact List.mem_cons_of_mem _ hm
      · left
        simp only [Option.some.injEq] at hb
        rw [← hb]
        exact List.mem_cons_self hd rest

/-- The after-timestamp returned by the surround search is an element of
the array. -/
theorem findSurround_snd_mem {t : ℚ} :
    ∀ (l : List ℚ) (b : Option ℚ) (x : ℚ), (findSurround t l b).2 = some x →
      x ∈ l := by
  intro l
  induction l with
  | nil =>
    intro b x h
    simp [findSurround] at h
  | cons hd rest ih =>
    intro b x hx
    simp only [findSurround] at hx
    by_cases hth : t ≤ hd
    · rw [if_pos hth] at hx
      simp only [Option.some.injEq] at hx
      rw [← hx]
      exact List.mem_cons_self hd rest
    · rw [if_neg hth] at hx
      exact List.mem_cons_of_mem _ (ih _ x hx)

/-- A sorted list's elements are bounded by its last element. -/
theorem le_getLast_of_sorted :
    ∀ (l : List ℚ), List.Sorted (· ≤ ·) l → ∀ x ∈ l, ∀ hne : l ≠ [],
      x ≤ l.getLast hne := by
  intro l
  induction l with
  | nil =>
    intro _ x hx
    simp at hx
  | cons hd rest ih =>
    intro hs x hx hne
    rcases List.mem_cons.mp hx with rfl | hx'
    · cases rest with
      | nil => simp [List.getLast]
      | cons h2 r2 =>
        rw [List.getLast_cons (by simp)]
        exact (List.sorted_cons.mp hs).1 _ (List.getLast_mem _)
    · cases rest with
      | nil => simp at hx'
      | cons h2 r2 =>
        rw [List.getLast_cons (by simp)]
        exact ih (List.sorted_cons.mp hs).2 x hx' (by simp)

/-- On a nonempty keyframe map the interpolation always produces a
selection. -/
theorem getInterpolatedSelection_isSome {kfs : KeyframeMap} (smoothing : Bool)
    (t : ℚ) (hne : kfs ≠ []) :
    (getInterpolatedSelection smoothing kfs t).isSome := by
  have hmg : ∀ x : ℚ, x ∈ sortedKeys kfs → (mapGet x kfs).isSome := by
    intro x hx
    exact mapGet_isSome_of_mem_keys ((sortedKeys_perm kfs).mem_iff.mp hx)
  rw [getInterpolatedSelection, if_neg (by simpa using hne)]
  have hnn := findSurround_ne_none (t := t) (sortedKeys kfs) none
    (Or.inl (sortedKeys_ne_nil hne))
  cases hfs : findSurround t (sortedKeys kfs) none with
  | mk bo ao =>
    rw [hfs] at hnn
    cases bo with
    | none =>
      cases ao with
      | none => exact absurd rfl hnn
      | some a =>
        exact hmg a (findSurround_snd_mem _ _ _ (by rw [hfs]))
    | some b =>
      cases ao with
      | none =>
        have hb : b ∈ sortedKeys kfs := by
          rcases findSurround_fst_mem _ _ _ (by rw [hfs]) with
            hm | hcon
          · exact hm
          · exact absurd hcon (by simp)
        exact hmg b hb
      | some a =>
        have hb : b ∈ sortedKeys kfs := by
          rcases findSurround_fst_mem _ _ _ (by rw [hfs]) with
            hm | hcon
          · exact hm
          · exact absurd hcon (by simp)
        have ha : a ∈ sortedKeys kfs :=
          findSurround_snd_mem _ _ _ (by rw [hfs])
        by_cases hba : b = a
        · simp only [if_pos hba]
          exact hmg b hb
        · simp only [if_neg hba]
          obtain ⟨s1, hs1⟩ := Option.isSome_iff_exists.mp (hmg b hb)
          obtain ⟨s2, hs2⟩ := Option.isSome_iff_exists.mp (hmg a ha)
          rw [hs1, hs2]
          simp

/-- C1: for every keyframe track, `interpolate(t)` returns null exactly when
the track is empty; when `t` equals a stored keyframe timestamp it returns
that keyframe's selection unmodified (identity at sample points); and when
`t` lies before the first or after the last stored timestamp it returns the
nearest boundary keyframe's selection unchanged (no extrapolation beyond
the track's ends). -/
theorem C1_interpolation_edge_policy (kfs : KeyframeMap) (smoothing : Bool)
    (t : ℚ) (hnd : (kfs.map Prod.fst).Nodup) :
    (getInterpolatedSelection smoothing kfs t = none ↔ kfs = [])
    ∧ (∀ sel, (t, sel) ∈ kfs → getInterpolatedSelection smoothing kfs t = some sel)
    ∧ (∀ ts sel, (ts, sel) ∈ kfs → (∀ q ∈ kfs.map Prod.fst, ts ≤ q) → t < ts →
        getInterpolatedSelection smoothing kfs t = some sel)
    ∧ (∀ ts sel, (ts, sel) ∈ kfs → (∀ q ∈ kfs.map Prod.fst, q ≤ ts) → ts < t →
        getInterpolatedSelection smoothing kfs t = some sel) := by
  refine ⟨⟨?_, ?_⟩, ?_, ?_, ?_⟩
  · intro hnone
    by_contra hne
    have hs := getInterpolatedSelection_isSome smoothing t hne
    rw [hnone] at hs
    simp at hs
  · intro h
    subst h
    simp [getInterpolatedSelection]
  · intro sel hmem
    have ht : t ∈ sortedKeys kfs :=
      (sortedKeys_perm kfs).mem_iff.mpr (List.mem_map.mpr ⟨(t, sel), hmem, rfl⟩)
    have hne : kfs ≠ [] := by
      rintro rfl
      simp at hmem
    rw [getInterpolatedSelection, if_neg (by simpa using hne),
      findSurround_exact (sortedKeys kfs) none (sortedKeys_strict hnd) ht]
    dsimp only
    rw [if_pos rfl]
    exact mapGet_eq_of_mem hmem hnd
  · intro ts sel hmem hmin hlt
    have hne : kfs ≠ [] := by
      rintro rfl
      simp at hmem
    have htne := sortedKeys_ne_nil hne
    obtain ⟨hd, rest, heq⟩ := List.exists_cons_of_ne_nil htne
    have hts_mem : ts ∈ sortedKeys kfs :=
      (sortedKeys_perm kfs).mem_iff.mpr (List.mem_map.mpr ⟨(ts, sel), hmem, rfl⟩)
    have hhd_mem : hd ∈ kfs.map Prod.fst :=
      (sortedKeys_perm kfs).mem_iff.mp (heq ▸ List.mem_cons_self hd rest)
    have h1 : ts ≤ hd := hmin hd hhd_mem
    have h2 : hd ≤ ts := by
      have hsor := sortedKeys_sorted kfs
      rw [heq] at hsor hts_mem
      rcases List.mem_cons.mp hts_mem with rfl | h'
      · exact le_refl _
      · exact (List.sorted_cons.mp hsor).1 ts h'
    have heqts : hd = ts := le_antisymm h2 h1
    rw [getInterpolatedSelection, if_neg (by simpa using hne), heq,
      findSurround_head_gt rest none (show t < hd by rw [heqts]; exact hlt)]
    dsimp only
    rw [heqts]
    exact mapGet_eq_of_mem hmem hnd
  · intro ts sel hmem hmax hlt
    have hne : kfs ≠ [] := by
      rintro rfl
      simp at hmem
    have htne := sortedKeys_ne_nil hne
    have hall : ∀ x ∈ sortedKeys kfs, x < t := by
      intro x hx
      exact lt_of_le_of_lt (hmax x ((sortedKeys_perm kfs).mem_iff.mp hx)) hlt
    have hts_mem : ts ∈ sortedKeys kfs :=
      (sortedKeys_perm kfs).mem_iff.mpr (List.mem_map.mpr ⟨(ts, sel), hmem, rfl⟩)
    have hlast_eq : (sortedKeys kfs).getLast htne = ts := by
      apply le_antisymm
      · exact hmax _ ((sortedKeys_perm kfs).mem_iff.mp (List.getLast_mem htne))
      · exact le_getLast_of_sorted _ (sortedKeys_sorted kfs) ts hts_mem htne
    have hgl : (sortedKeys kfs).getLast? = some ts := by
      rw [List.getLast?_eq_getLast _ htne, hlast_eq]
    rw [getInterpolatedSelection, if_neg (by simpa using hne),
      findSurround_all_lt (sortedKeys kfs) none htne hall, hgl]
    dsimp only
    exact mapGet_eq_of_mem hmem hnd

/-- Witness for C1: on a one-keyframe track, interpolation at the stored
timestamp returns that keyframe's selection. -/
theorem C1_interpolation_edge_policy_witness :
    getInterpolatedSelection true [(1, demoSelA)] 1 = some demoSelA :=
  (C1_interpolation_edge_policy [(1, demoSelA)] true 1 (by simp)).2.1 demoSelA
    (by simp)

end FastClipper
